import Mathlib

/-!
Shallow embedding of the two pricing components of the repository:

* `Hull_and_white_rate_options_pricer.py`: `build_rate_tree` and `price_option`
  (binomial short-rate lattice with backward induction, Bermudan exercise and
  per-node barrier zeroing).  Python floats are modelled by `ℝ`; the in-place
  `option_values` array is modelled by rows computed backward from the terminal
  row.  `T / N` with `N = 0` raises a `ZeroDivisionError` in Python, so the
  builder returns an `Option`, `none` on `N = 0`.

* `montecarlo_pricer_v1.py`: `paths_anti` and `paths_con`.  The numpy
  path matrix with in-place (and negatively indexed, i.e. wrap-around) writes
  is modelled as a function `ℕ → ℕ → ℝ` updated by `mset`; the stream of
  `np.random.normal()` draws is an explicit argument `draws : ℕ → ℝ`, consumed
  in program order (iteration `(j, i)` of a loop uses draw `j * Nsteps + i`,
  offset past the draws already consumed by earlier loops).  `dt = T / Nsteps`
  raises on `Nsteps = 0`, hence the `Option` results.
-/

namespace MiniCodes

noncomputable section

/-! ### Lattice pricer: data model -/

inductive BarrierType
  | DownIn
  | DownOut
  | UpIn
  | UpOut

/-- Rate at node `(i, j)` of the lattice: `r0 + (2*j - i) * dx`
(`Hull_and_white_rate_options_pricer.py`, line 37). -/
def treeRate (r0 dx : ℝ) (i j : ℕ) : ℝ := r0 + (2 * (j : ℝ) - (i : ℝ)) * dx

/-- The triangular rate list built by `build_rate_tree` for `N ≥ 1`:
levels `i = 0..N`, states `j = 0..i`, with `dx = sigma * sqrt (T / N)`. -/
def hwTree (r0 sigma T : ℝ) (N : ℕ) : List (List ℝ) :=
  (List.range (N + 1)).map fun i =>
    (List.range (i + 1)).map fun j => treeRate r0 (sigma * Real.sqrt (T / (N : ℝ))) i j

/-- `build_rate_tree(r0, a, sigma, T, N)` (source lines 30-40).  Returns the
tree together with `dt = T / N` and `dx = sigma * sqrt dt`; `a` is accepted but
never used.  With `N = 0` the Python statement `dt = T / N` raises a
`ZeroDivisionError`, modelled as `none`. -/
def build_rate_tree (r0 a sigma T : ℝ) (N : ℕ) : Option (List (List ℝ) × ℝ × ℝ) :=
  if N = 0 then none
  else some (hwTree r0 sigma T N, T / (N : ℝ), sigma * Real.sqrt (T / (N : ℝ)))

/-- Read `tree[i][j]` (in-range accesses only are performed by the source). -/
def treeGet (tree : List (List ℝ)) (i j : ℕ) : ℝ := (tree.getD i []).getD j 0

/-- `(r - strike)` for a call, `(strike - r)` for a put (lines 49 and 65). -/
def intrinsicVal (is_call : Bool) (strike r : ℝ) : ℝ :=
  if is_call then r - strike else strike - r

/-- The barrier zeroing applied node-by-node (lines 51-57 and 70-76): when the
barrier is active, knock-in barriers zero the value unless the node rate has
breached the level, knock-out barriers zero it when the rate has breached. -/
def applyBarrier (is_barrier : Bool) (bt : Option BarrierType) (barrier r v : ℝ) : ℝ :=
  match bt with
  | none => v
  | some t =>
    if is_barrier then
      match t with
      | BarrierType.DownIn => if ¬ r ≤ barrier then 0 else v
      | BarrierType.UpIn => if ¬ barrier ≤ r then 0 else v
      | BarrierType.DownOut => if r ≤ barrier then 0 else v
      | BarrierType.UpOut => if barrier ≤ r then 0 else v
    else v

/-- Terminal row of `option_values` (lines 47-57):
`max(intrinsic, 0)` at rate `tree[N][j]`, then the barrier policy. -/
def terminalRow (tree : List (List ℝ)) (strike barrier : ℝ) (bt : Option BarrierType)
    (is_barrier is_call : Bool) (N j : ℕ) : ℝ :=
  applyBarrier is_barrier bt barrier (treeGet tree N j)
    (max (intrinsicVal is_call strike (treeGet tree N j)) 0)

/-- One backward-induction node at step `i` (lines 60-76): discounted expected
continuation with `p = 0.5`, optional Bermudan early exercise, then the barrier
policy at the node's own rate. -/
def backStep (tree : List (List ℝ)) (dt strike barrier : ℝ) (bt : Option BarrierType)
    (is_barrier is_bermudan is_call : Bool) (i : ℕ) (vnext : ℕ → ℝ) (j : ℕ) : ℝ :=
  applyBarrier is_barrier bt barrier (treeGet tree i j)
    (if is_bermudan then
      max (Real.exp (-treeGet tree i j * dt) * (0.5 * vnext (j + 1) + (1 - 0.5) * vnext j))
        (max (intrinsicVal is_call strike (treeGet tree i j)) 0)
     else Real.exp (-treeGet tree i j * dt) * (0.5 * vnext (j + 1) + (1 - 0.5) * vnext j))

/-- Row `N - k` of the `option_values` array, computed backward from the
terminal row (`k = 0` is row `N`, `k = N` is row `0`). -/
def rowsFrom (tree : List (List ℝ)) (dt strike barrier : ℝ) (bt : Option BarrierType)
    (is_barrier is_bermudan is_call : Bool) (N : ℕ) : ℕ → ℕ → ℝ
  | 0 => terminalRow tree strike barrier bt is_barrier is_call N
  | k + 1 => backStep tree dt strike barrier bt is_barrier is_bermudan is_call (N - (k + 1))
      (rowsFrom tree dt strike barrier bt is_barrier is_bermudan is_call N k)

/-- `option_values[0][0]` for `N ≥ 1`: the root value of the backward
induction run on the tree built by `build_rate_tree`. -/
def priceRoot (r0 sigma T : ℝ) (N : ℕ) (strike : ℝ) (bt : Option BarrierType)
    (barrier : ℝ) (is_barrier is_bermudan is_call : Bool) : ℝ :=
  rowsFrom (hwTree r0 sigma T N) (T / (N : ℝ)) strike barrier bt
    is_barrier is_bermudan is_call N N 0

/-- `price_option(r0, a, sigma, T, N, option_type, strike, barrier_type,
barrier, is_barrier, is_bermudan, is_call)` (source lines 43-77).
`option_type` is a string parameter the body never reads (only `is_bermudan`
is consulted); the `N = 0` failure of `build_rate_tree` propagates. -/
def price_option (r0 a sigma T : ℝ) (N : ℕ) (option_type : String) (strike : ℝ)
    (barrier_type : Option BarrierType) (barrier : ℝ)
    (is_barrier is_bermudan is_call : Bool) : Option ℝ :=
  match build_rate_tree r0 a sigma T N with
  | none => none
  | some (tree, dt, _) =>
      some (rowsFrom tree dt strike barrier barrier_type
        is_barrier is_bermudan is_call N N 0)

/-! ### Monte Carlo pricer: data model -/

/-- Module-level strike of `montecarlo_pricer_v1.py` (line 7): the two
simulators read the global `K = 110`. -/
def Kglob : ℝ := 110

/-- A numpy 2-D array as a total function (row, column) ↦ value. -/
def mset (m : ℕ → ℕ → ℝ) (r c : ℕ) (v : ℝ) : ℕ → ℕ → ℝ :=
  fun i j => if i = r ∧ j = c then v else m i j

/-- `np.zeros((Nsteps+1, Nsim))` followed by `paths[0,:] = S`. -/
def initPaths (S : ℝ) : ℕ → ℕ → ℝ := fun i _ => if i = 0 then S else 0

/-- The column addressed by the numpy negative index `-j` in a matrix with
`Nsim` columns: `(Nsim - j) % Nsim` (wrap-around; `-0` is column `0`). -/
def negIdx (Nsim j : ℕ) : ℕ := (Nsim - j) % Nsim

/-- One time step of the `paths_anti` inner loop (source lines 25-27): a single
draw `z` drives the write to `paths[i+1, j]` with `+z` and then the write to
`paths[i+1, -j]` with `-z`, in that order. -/
def antiBody (r sigma dt sq : ℝ) (Nsim j : ℕ) (z : ℝ) (i : ℕ)
    (m : ℕ → ℕ → ℝ) : ℕ → ℕ → ℝ :=
  let m1 := mset m (i + 1) j
    (m i j * Real.exp (dt * (r - 0.5 * sigma ^ 2) + sigma * sq * z))
  mset m1 (i + 1) (negIdx Nsim j)
    (m1 i (negIdx Nsim j) * Real.exp (dt * (r - 0.5 * sigma ^ 2) - sigma * sq * z))

/-- One iteration `j` of the `paths_anti` outer loop: the inner loop over
`i in range(Nsteps)`, consuming draws `j * Nsteps + i`. -/
def antiIter (r sigma dt sq : ℝ) (Nsteps Nsim : ℕ) (draws : ℕ → ℝ)
    (m : ℕ → ℕ → ℝ) (j : ℕ) : ℕ → ℕ → ℝ :=
  (List.range Nsteps).foldl
    (fun acc i => antiBody r sigma dt sq Nsim j (draws (j * Nsteps + i)) i acc) m

/-- The bound of the `paths_anti` outer loop, exactly as written in the source
(line 23): `range(Nsim+1//2)`.  Python floor division binds tighter than `+`,
and so does `/` on `ℕ` here, so this is `Nsim + (1 / 2) = Nsim`. -/
def antiLoopCount (Nsim : ℕ) : ℕ := Nsim + 1 / 2

/-- The path matrix produced by `paths_anti` (lines 19-27), with
`dt = T / Nsteps`. -/
def antiMatrix (S r sigma T : ℝ) (Nsteps Nsim : ℕ) (draws : ℕ → ℝ) : ℕ → ℕ → ℝ :=
  (List.range (antiLoopCount Nsim)).foldl
    (antiIter r sigma (T / (Nsteps : ℝ)) (Real.sqrt (T / (Nsteps : ℝ))) Nsteps Nsim draws)
    (initPaths S)

/-- `np.mean` over the `n` columns of a row vector. -/
def npMean (n : ℕ) (f : ℕ → ℝ) : ℝ := (∑ c ∈ Finset.range n, f c) / (n : ℝ)

/-- The scalar returned by `paths_anti` (lines 28-29):
`exp(-r*T) * mean(max(option * (paths[-1,:] - K), 0))`. -/
def antiPrice (opt S r sigma T : ℝ) (Nsteps Nsim : ℕ) (draws : ℕ → ℝ) : ℝ :=
  Real.exp (-r * T) *
    npMean Nsim (fun c =>
      max (opt * (antiMatrix S r sigma T Nsteps Nsim draws Nsteps c - Kglob)) 0)

/-- `paths_anti(option, S, r, sigma, T, Nsteps, Nsim)` (lines 18-30);
`none` models the `ZeroDivisionError` of `dt = T / Nsteps` at `Nsteps = 0`. -/
def paths_anti (opt S r sigma T : ℝ) (Nsteps Nsim : ℕ) (draws : ℕ → ℝ) :
    Option ((ℕ → ℕ → ℝ) × ℝ) :=
  if Nsteps = 0 then none
  else some (antiMatrix S r sigma T Nsteps Nsim draws,
    antiPrice opt S r sigma T Nsteps Nsim draws)

/-- One time step of a `paths_con` loop (lines 43-44 and 53-54): only the
positive-draw write. -/
def conBody (r sigma dt sq : ℝ) (j : ℕ) (z : ℝ) (i : ℕ)
    (m : ℕ → ℕ → ℝ) : ℕ → ℕ → ℝ :=
  mset m (i + 1) j (m i j * Real.exp (dt * (r - 0.5 * sigma ^ 2) + sigma * sq * z))

/-- A `paths_con` double loop over `j in range(Npaths)`, `i in range(Nsteps)`,
starting from the freshly zeroed matrix with row 0 set to `S`, and consuming
draws `off + (j * Nsteps + i)`. -/
def conLoop (S r sigma dt sq : ℝ) (Nsteps Npaths : ℕ) (draws : ℕ → ℝ)
    (off : ℕ) : ℕ → ℕ → ℝ :=
  (List.range Npaths).foldl
    (fun m j => (List.range Nsteps).foldl
      (fun acc i => conBody r sigma dt sq j (draws (off + (j * Nsteps + i))) i acc) m)
    (initPaths S)

/-- `paths_1`: the `Nopti` auxiliary paths of `paths_con` (lines 36-44). -/
def conM1 (S r sigma T : ℝ) (Nsteps Nopti : ℕ) (draws : ℕ → ℝ) : ℕ → ℕ → ℝ :=
  conLoop S r sigma (T / (Nsteps : ℝ)) (Real.sqrt (T / (Nsteps : ℝ))) Nsteps Nopti draws 0

/-- `paths_2`: the `Nsim` pricing paths of `paths_con` (lines 38-39 and 51-54),
whose draws come after the `Nopti * Nsteps` draws of the first loop. -/
def conM2 (S r sigma T : ℝ) (Nsteps Nsim Nopti : ℕ) (draws : ℕ → ℝ) : ℕ → ℕ → ℝ :=
  conLoop S r sigma (T / (Nsteps : ℝ)) (Real.sqrt (T / (Nsteps : ℝ))) Nsteps Nsim draws
    (Nopti * Nsteps)

/-- Sample covariance with `n - 1` normalisation, as `np.cov` computes for a
pair of variables. -/
def sampleCov (n : ℕ) (x y : ℕ → ℝ) : ℝ :=
  (∑ i ∈ Finset.range n, (x i - npMean n x) * (y i - npMean n y)) / ((n : ℝ) - 1)

/-- `var_z = S**2 * exp(2*r*T) * (exp(T*sigma**2) - 1)` (line 47). -/
def conVarZ (S r sigma T : ℝ) : ℝ :=
  S ^ 2 * Real.exp (2 * r * T) * (Real.exp (T * sigma ^ 2) - 1)

/-- `cov = np.cov(paths_1, payoffs_1)[1,0]` (line 46).  numpy treats every row
of `paths_1` as one variable and stacks `payoffs_1` beneath them as the last
row, so entry `[1, 0]` of the resulting covariance matrix is the sample
covariance between row `1` and row `0` of `paths_1` — the payoffs play no part
in the selected entry. -/
def conCov (S r sigma T : ℝ) (Nsteps Nopti : ℕ) (draws : ℕ → ℝ) : ℝ :=
  sampleCov Nopti (fun c => conM1 S r sigma T Nsteps Nopti draws 1 c)
    (fun c => conM1 S r sigma T Nsteps Nopti draws 0 c)

/-- `c = -cov / var_z` (line 48), the control coefficient actually computed. -/
def conCoeff (S r sigma T : ℝ) (Nsteps Nopti : ℕ) (draws : ℕ → ℝ) : ℝ :=
  -conCov S r sigma T Nsteps Nopti draws / conVarZ S r sigma T

/-- The scalar returned by `paths_con` (lines 56-57):
`mean(payoffs_2 + c * (S - exp_z))` with `payoffs_2` the discounted payoffs of
the pricing paths and `exp_z = S * exp(r*T)` (line 49), a constant. -/
def conPrice (opt S r sigma T : ℝ) (Nsteps Nsim Nopti : ℕ) (draws : ℕ → ℝ) : ℝ :=
  npMean Nsim (fun p =>
    max (opt * (conM2 S r sigma T Nsteps Nsim Nopti draws Nsteps p - Kglob)) 0 *
        Real.exp (-r * T)
      + conCoeff S r sigma T Nsteps Nopti draws * (S - S * Real.exp (r * T)))

/-- `paths_con(option, S, r, sigma, T, Nsteps, Nsim, Nopti)` (lines 34-58). -/
def paths_con (opt S r sigma T : ℝ) (Nsteps Nsim Nopti : ℕ) (draws : ℕ → ℝ) :
    Option ((ℕ → ℕ → ℝ) × ℝ) :=
  if Nsteps = 0 then none
  else some (conM2 S r sigma T Nsteps Nsim Nopti draws,
    conPrice opt S r sigma T Nsteps Nsim Nopti draws)

/-- Modelled from the spec: the control-variate price as § 4.5 words it,
`price = mean(discounted_payoff + c·(S − S_T))` with `S_T` the pricing path's
own simulated terminal price. -/
def specConPrice (opt S r sigma T : ℝ) (Nsteps Nsim Nopti : ℕ) (draws : ℕ → ℝ) : ℝ :=
  npMean Nsim (fun p =>
    max (opt * (conM2 S r sigma T Nsteps Nsim Nopti draws Nsteps p - Kglob)) 0 *
        Real.exp (-r * T)
      + conCoeff S r sigma T Nsteps Nopti draws *
          (S - conM2 S r sigma T Nsteps Nsim Nopti draws Nsteps p))

/-- Modelled from the spec: the control coefficient as § 4.5 words it,
`c = −Cov(S_T, payoff) / Var(S_T)` with the sample covariance taken between
the auxiliary paths' terminal prices and their payoffs. -/
def specConCoeff (opt S r sigma T : ℝ) (Nsteps Nopti : ℕ) (draws : ℕ → ℝ) : ℝ :=
  -(sampleCov Nopti (fun c => conM1 S r sigma T Nsteps Nopti draws Nsteps c)
      (fun c => max (opt * (conM1 S r sigma T Nsteps Nopti draws Nsteps c - Kglob)) 0))
    / conVarZ S r sigma T

/-- The mirrored path of claim C10: starts at `S` and applies the
negated-draw multiplicative update `exp(dt*(r - sigma^2/2) - sigma*sqrt dt*z)`
with a fresh exponent per step. -/
def negSeq (S r sigma dt sq : ℝ) (draws : ℕ → ℝ) : ℕ → ℝ
  | 0 => S
  | i + 1 => negSeq S r sigma dt sq draws i *
      Real.exp (dt * (r - 0.5 * sigma ^ 2) - sigma * sq * draws i)

/-- `negSeq` at the `paths_anti` step size `dt = T / Nsteps`. -/
def negPath (S r sigma T : ℝ) (Nsteps : ℕ) (draws : ℕ → ℝ) : ℕ → ℝ :=
  negSeq S r sigma (T / (Nsteps : ℝ)) (Real.sqrt (T / (Nsteps : ℝ))) draws

/-- Concrete draw stream used by witnesses: first draw 3, all others 0. -/
def dBug : ℕ → ℝ := fun k => if k = 0 then 3 else 0

/-! ### Helper lemmas: the barrier policy -/

theorem applyBarrier_inactive (bt : Option BarrierType) (b r v : ℝ) :
    applyBarrier false bt b r v = v := by
  cases bt with
  | none => rfl
  | some t => rfl

theorem applyBarrier_nonneg (ib : Bool) (bt : Option BarrierType) (b r v : ℝ)
    (hv : 0 ≤ v) : 0 ≤ applyBarrier ib bt b r v := by
  cases bt with
  | none => exact hv
  | some t =>
    cases ib with
    | false => exact hv
    | true =>
      cases t <;> simp only [applyBarrier, if_true] <;> split_ifs <;>
        first | exact le_rfl | exact hv

theorem applyBarrier_le_self (ib : Bool) (bt : Option BarrierType) (b r v : ℝ)
    (hv : 0 ≤ v) : applyBarrier ib bt b r v ≤ v := by
  cases bt with
  | none => exact le_rfl
  | some t =>
    cases ib with
    | false => exact le_rfl
    | true =>
      cases t <;> simp only [applyBarrier, if_true] <;> split_ifs <;>
        first | exact le_rfl | exact hv

theorem applyBarrier_mono (ib : Bool) (bt : Option BarrierType) (b r v w : ℝ)
    (hvw : v ≤ w) : applyBarrier ib bt b r v ≤ applyBarrier ib bt b r w := by
  cases bt with
  | none => exact hvw
  | some t =>
    cases ib with
    | false => exact hvw
    | true =>
      cases t <;> simp only [applyBarrier, if_true] <;> split_ifs <;>
        first | exact le_rfl | exact hvw

/-! ### Helper lemmas: backward induction -/

theorem rowsFrom_nonneg (tree : List (List ℝ)) (dt strike barrier : ℝ)
    (bt : Option BarrierType) (ib iber ic : Bool) (N : ℕ) :
    ∀ k j, 0 ≤ rowsFrom tree dt strike barrier bt ib iber ic N k j := by
  intro k
  induction k with
  | zero =>
    intro j
    exact applyBarrier_nonneg _ _ _ _ _ (le_max_right _ _)
  | succ k ih =>
    intro j
    refine applyBarrier_nonneg _ _ _ _ _ ?_
    have hcont : 0 ≤ Real.exp (-treeGet tree (N - (k + 1)) j * dt) *
        (0.5 * rowsFrom tree dt strike barrier bt ib iber ic N k (j + 1) +
          (1 - 0.5) * rowsFrom tree dt strike barrier bt ib iber ic N k j) := by
      have h1 := ih (j + 1)
      have h2 := ih j
      have he := (Real.exp_pos (-treeGet tree (N - (k + 1)) j * dt)).le
      nlinarith
    cases iber with
    | false => exact hcont
    | true => exact le_trans hcont (le_max_left _ _)

theorem price_option_eq (r0 a sigma T : ℝ) (N : ℕ) (ot : String) (strike : ℝ)
    (bt : Option BarrierType) (b : ℝ) (ib iber ic : Bool) (hN : N ≠ 0) :
    price_option r0 a sigma T N ot strike bt b ib iber ic =
      some (priceRoot r0 sigma T N strike bt b ib iber ic) := by
  unfold price_option build_rate_tree
  rw [if_neg hN]
  rfl

/-! ### Claim theorems: the lattice pricer -/

/-- C1 (code evidence): the `paths_anti` outer loop bound `range(Nsim+1//2)`
is `Nsim` for every `Nsim` — by Python operator precedence `Nsim+1//2` is
`Nsim + (1//2) = Nsim` — and in particular at `Nsim = 5` the loop runs 5
times where the claimed count `⌊(Nsim+1)/2⌋` is 3. -/
theorem anti_pair_loop_count_is_Nsim :
    (∀ Nsim : ℕ, antiLoopCount Nsim = Nsim) ∧ antiLoopCount 5 = 5 ∧ (5 + 1) / 2 = 3 :=
  ⟨fun _ => rfl, rfl, rfl⟩

/-- C4 (counterexample): with `N = 0` the lattice builder does not yield a
single terminal node — `dt = T / N` raises, modelled by `none`, and
`price_option` propagates the failure. -/
theorem build_rate_tree_N0_fails :
    build_rate_tree 0.03 0.1 0.01 1 0 = none ∧
      price_option 0.03 0.1 0.01 1 0 "European" 0.03 none 0 false false true = none :=
  ⟨rfl, rfl⟩

/-- C4 (amended): for every `N ≥ 1` the lattice builder has no error
conditions and produces a lattice of `N + 1` levels; `N = 0` fails (see the
counterexample) instead of yielding a single terminal node. -/
theorem build_rate_tree_pos_N (r0 a sigma T : ℝ) (N : ℕ) (hN : 0 < N) :
    build_rate_tree r0 a sigma T N =
        some (hwTree r0 sigma T N, T / (N : ℝ), sigma * Real.sqrt (T / (N : ℝ))) ∧
      (hwTree r0 sigma T N).length = N + 1 := by
  constructor
  · unfold build_rate_tree
    rw [if_neg (Nat.pos_iff_ne_zero.mp hN)]
  · simp [hwTree]

/-- C4 witness at `N = 1`. -/
theorem build_rate_tree_pos_N_witness :
    build_rate_tree 0.03 0.1 0.01 1 1 =
        some (hwTree 0.03 0.01 1 1, 1 / ((1 : ℕ) : ℝ), 0.01 * Real.sqrt (1 / ((1 : ℕ) : ℝ))) ∧
      (hwTree 0.03 0.01 1 1).length = 1 + 1 :=
  build_rate_tree_pos_N 0.03 0.1 0.01 1 1 (by decide)

/-- C5: for `N ≥ 1` (and any other parameters) `price_option` returns a
value, and that value — the root of the backward induction — is nonnegative. -/
theorem price_option_nonneg (r0 a sigma T : ℝ) (N : ℕ) (ot : String) (strike : ℝ)
    (bt : Option BarrierType) (b : ℝ) (ib iber ic : Bool) (hN : 0 < N) :
    price_option r0 a sigma T N ot strike bt b ib iber ic =
        some (priceRoot r0 sigma T N strike bt b ib iber ic) ∧
      0 ≤ priceRoot r0 sigma T N strike bt b ib iber ic :=
  ⟨price_option_eq r0 a sigma T N ot strike bt b ib iber ic (Nat.pos_iff_ne_zero.mp hN),
    rowsFrom_nonneg _ _ _ _ _ _ _ _ _ N 0⟩

/-- C5 witness at a concrete parameter set. -/
theorem price_option_nonneg_witness :
    price_option 0.03 0.1 0.01 1 2 "European" 0.03 none 0 false false true =
        some (priceRoot 0.03 0.01 1 2 0.03 none 0 false false true) ∧
      0 ≤ priceRoot 0.03 0.01 1 2 0.03 none 0 false false true :=
  price_option_nonneg 0.03 0.1 0.01 1 2 "European" 0.03 none 0 false false true (by decide)

/-- C9: the mean-reversion parameter `a` has no influence: both
`build_rate_tree` and `price_option` return identical results for any two
values of `a`, all other arguments equal. -/
theorem mean_reversion_a_unused (r0 a1 a2 sigma T : ℝ) (N : ℕ) (ot : String)
    (strike : ℝ) (bt : Option BarrierType) (b : ℝ) (ib iber ic : Bool) :
    build_rate_tree r0 a1 sigma T N = build_rate_tree r0 a2 sigma T N ∧
      price_option r0 a1 sigma T N ot strike bt b ib iber ic =
        price_option r0 a2 sigma T N ot strike bt b ib iber ic :=
  ⟨rfl, rfl⟩

theorem backStep_mono_vnext (tree : List (List ℝ)) (dt strike barrier : ℝ)
    (bt : Option BarrierType) (ib iber ic : Bool) (i : ℕ) (v w : ℕ → ℝ)
    (hvw : ∀ j, v j ≤ w j) (j : ℕ) :
    backStep tree dt strike barrier bt ib iber ic i v j ≤
      backStep tree dt strike barrier bt ib iber ic i w j := by
  unfold backStep
  refine applyBarrier_mono _ _ _ _ _ _ ?_
  have hcont : Real.exp (-treeGet tree i j * dt) * (0.5 * v (j + 1) + (1 - 0.5) * v j) ≤
      Real.exp (-treeGet tree i j * dt) * (0.5 * w (j + 1) + (1 - 0.5) * w j) := by
    have h1 := hvw (j + 1)
    have h2 := hvw j
    have he := (Real.exp_pos (-treeGet tree i j * dt)).le
    nlinarith
  cases iber with
  | false => simpa using hcont
  | true =>
    simp only [if_pos]
    exact max_le_max hcont le_rfl

theorem backStep_false_le_true (tree : List (List ℝ)) (dt strike barrier : ℝ)
    (bt : Option BarrierType) (ib ic : Bool) (i : ℕ) (v : ℕ → ℝ) (j : ℕ) :
    backStep tree dt strike barrier bt ib false ic i v j ≤
      backStep tree dt strike barrier bt ib true ic i v j := by
  unfold backStep
  refine applyBarrier_mono _ _ _ _ _ _ ?_
  simp only [Bool.false_eq_true, if_false, if_pos]
  exact le_max_left _ _

theorem rowsFrom_eur_le_ber (tree : List (List ℝ)) (dt strike barrier : ℝ)
    (bt : Option BarrierType) (ib ic : Bool) (N : ℕ) :
    ∀ k j, rowsFrom tree dt strike barrier bt ib false ic N k j ≤
      rowsFrom tree dt strike barrier bt ib true ic N k j := by
  intro k
  induction k with
  | zero => intro j; exact le_rfl
  | succ k ih =>
    intro j
    refine le_trans (backStep_mono_vnext tree dt strike barrier bt ib false ic
      (N - (k + 1)) _ _ ih j) ?_
    exact backStep_false_le_true tree dt strike barrier bt ib ic (N - (k + 1)) _ j

theorem backStep_active_le (tree : List (List ℝ)) (dt strike b : ℝ) (t : BarrierType)
    (iber ic : Bool) (i : ℕ) (v w : ℕ → ℝ) (hv : ∀ j, 0 ≤ v j)
    (hvw : ∀ j, v j ≤ w j) (j : ℕ) :
    backStep tree dt strike b (some t) true iber ic i v j ≤
      backStep tree dt strike b none false iber ic i w j := by
  have hX : 0 ≤ (if iber then
      max (Real.exp (-treeGet tree i j * dt) * (0.5 * v (j + 1) + (1 - 0.5) * v j))
        (max (intrinsicVal ic strike (treeGet tree i j)) 0)
    else Real.exp (-treeGet tree i j * dt) * (0.5 * v (j + 1) + (1 - 0.5) * v j)) := by
    cases iber with
    | false =>
      have h1 := hv (j + 1)
      have h2 := hv j
      have he := (Real.exp_pos (-treeGet tree i j * dt)).le
      simp only [Bool.false_eq_true, if_false]
      nlinarith
    | true =>
      simp only [if_pos]
      exact le_trans (le_max_right _ 0) (le_max_right _ _)
  have hself : backStep tree dt strike b (some t) true iber ic i v j ≤
      backStep tree dt strike b none false iber ic i v j :=
    applyBarrier_le_self true (some t) b (treeGet tree i j) _ hX
  exact le_trans hself
    (backStep_mono_vnext tree dt strike b none false iber ic i v w hvw j)

theorem rowsFrom_barrier_le (tree : List (List ℝ)) (dt strike b : ℝ) (t : BarrierType)
    (iber ic : Bool) (N : ℕ) :
    ∀ k j, rowsFrom tree dt strike b (some t) true iber ic N k j ≤
      rowsFrom tree dt strike b none false iber ic N k j := by
  intro k
  induction k with
  | zero =>
    intro j
    exact applyBarrier_le_self true (some t) b (treeGet tree N j) _ (le_max_right _ _)
  | succ k ih =>
    intro j
    exact backStep_active_le tree dt strike b t iber ic (N - (k + 1))
      _ _ (rowsFrom_nonneg tree dt strike b (some t) true iber ic N k) ih j

/-- C6: with Bermudan exercise the returned price is at least the European
price, all other parameters equal (for every `N ≥ 1`, where a price exists). -/
theorem bermudan_ge_european (r0 a sigma T : ℝ) (N : ℕ) (ot : String) (strike : ℝ)
    (bt : Option BarrierType) (b : ℝ) (ib ic : Bool) (hN : 0 < N) :
    price_option r0 a sigma T N ot strike bt b ib false ic =
        some (priceRoot r0 sigma T N strike bt b ib false ic) ∧
      price_option r0 a sigma T N ot strike bt b ib true ic =
        some (priceRoot r0 sigma T N strike bt b ib true ic) ∧
      priceRoot r0 sigma T N strike bt b ib false ic ≤
        priceRoot r0 sigma T N strike bt b ib true ic :=
  ⟨price_option_eq r0 a sigma T N ot strike bt b ib false ic (Nat.pos_iff_ne_zero.mp hN),
    price_option_eq r0 a sigma T N ot strike bt b ib true ic (Nat.pos_iff_ne_zero.mp hN),
    rowsFrom_eur_le_ber _ _ _ _ _ _ _ _ N 0⟩

/-- C6 witness at a concrete parameter set. -/
theorem bermudan_ge_european_witness :
    priceRoot 0.03 0.01 1 2 0.03 none 0 false false true ≤
      priceRoot 0.03 0.01 1 2 0.03 none 0 false true true :=
  (bermudan_ge_european 0.03 0.1 0.01 1 2 "European" 0.03 none 0 false true
    (by decide)).2.2

/-- C7: with an active barrier of any of the four types, the returned price is
at most the no-barrier price, all other parameters equal (for every `N ≥ 1`). -/
theorem barrier_le_no_barrier (r0 a sigma T : ℝ) (N : ℕ) (ot : String) (strike : ℝ)
    (t : BarrierType) (b : ℝ) (iber ic : Bool) (hN : 0 < N) :
    price_option r0 a sigma T N ot strike (some t) b true iber ic =
        some (priceRoot r0 sigma T N strike (some t) b true iber ic) ∧
      price_option r0 a sigma T N ot strike none b false iber ic =
        some (priceRoot r0 sigma T N strike none b false iber ic) ∧
      priceRoot r0 sigma T N strike (some t) b true iber ic ≤
        priceRoot r0 sigma T N strike none b false iber ic :=
  ⟨price_option_eq r0 a sigma T N ot strike (some t) b true iber ic
      (Nat.pos_iff_ne_zero.mp hN),
    price_option_eq r0 a sigma T N ot strike none b false iber ic
      (Nat.pos_iff_ne_zero.mp hN),
    rowsFrom_barrier_le _ _ _ _ t _ _ N N 0⟩

/-- C7 witness at a concrete parameter set with a Down-In barrier. -/
theorem barrier_le_no_barrier_witness :
    priceRoot 0.03 0.01 1 2 0.03 (some BarrierType.DownIn) 0.02 true false true ≤
      priceRoot 0.03 0.01 1 2 0.03 none 0.02 false false true :=
  (barrier_le_no_barrier 0.03 0.1 0.01 1 2 "European" 0.03 BarrierType.DownIn 0.02
    false true (by decide)).2.2

/-! ### Helper lemmas: the Monte Carlo path matrices -/

theorem foldl_invariant {α : Type} (Q : (ℕ → ℕ → ℝ) → Prop)
    (f : (ℕ → ℕ → ℝ) → α → (ℕ → ℕ → ℝ)) :
    ∀ (l : List α) (m : ℕ → ℕ → ℝ), Q m →
      (∀ m a, a ∈ l → Q m → Q (f m a)) → Q (l.foldl f m) := by
  intro l
  induction l with
  | nil =>
    intro m hm _
    simpa using hm
  | cons a t ih =>
    intro m hm hstep
    rw [List.foldl_cons]
    exact ih (f m a) (hstep m a (List.mem_cons_self a t) hm)
      (fun m2 a2 ha2 hm2 => hstep m2 a2 (List.mem_cons_of_mem a ha2) hm2)

theorem mset_same (m : ℕ → ℕ → ℝ) (r c : ℕ) (v : ℝ) : mset m r c v r c = v :=
  if_pos ⟨rfl, rfl⟩

theorem mset_ne (m : ℕ → ℕ → ℝ) (r c : ℕ) (v : ℝ) (i j : ℕ)
    (h : ¬(i = r ∧ j = c)) : mset m r c v i j = m i j := if_neg h

theorem antiBody_row_ne (r sigma dt sq : ℝ) (Nsim j : ℕ) (z : ℝ) (i : ℕ)
    (m : ℕ → ℕ → ℝ) (i2 c : ℕ) (h : i2 ≠ i + 1) :
    antiBody r sigma dt sq Nsim j z i m i2 c = m i2 c := by
  simp only [antiBody, mset]
  rw [if_neg (fun hc => h hc.1), if_neg (fun hc => h hc.1)]

theorem conBody_row_ne (r sigma dt sq : ℝ) (j : ℕ) (z : ℝ) (i : ℕ)
    (m : ℕ → ℕ → ℝ) (i2 c : ℕ) (h : i2 ≠ i + 1) :
    conBody r sigma dt sq j z i m i2 c = m i2 c := by
  simp only [conBody, mset]
  rw [if_neg (fun hc => h hc.1)]

theorem antiMatrix_row0 (S r sigma T : ℝ) (Nsteps Nsim : ℕ) (draws : ℕ → ℝ) :
    ∀ c, antiMatrix S r sigma T Nsteps Nsim draws 0 c = S := by
  unfold antiMatrix
  refine foldl_invariant (fun m => ∀ c, m 0 c = S) _ _ _ (fun c => rfl) ?_
  intro m j hj hm
  refine foldl_invariant (fun m2 => ∀ c, m2 0 c = S) _ _ _ hm ?_
  intro m2 t ht hm2 c
  rw [antiBody_row_ne _ _ _ _ _ _ _ _ _ _ _ (Ne.symm (Nat.succ_ne_zero t))]
  exact hm2 c

theorem conLoop_row0 (S r sigma dt sq : ℝ) (Nsteps Npaths : ℕ) (draws : ℕ → ℝ)
    (off : ℕ) : ∀ c, conLoop S r sigma dt sq Nsteps Npaths draws off 0 c = S := by
  unfold conLoop
  refine foldl_invariant (fun m => ∀ c, m 0 c = S) _ _ _ (fun c => rfl) ?_
  intro m j hj hm
  refine foldl_invariant (fun m2 => ∀ c, m2 0 c = S) _ _ _ hm ?_
  intro m2 t ht hm2 c
  rw [conBody_row_ne _ _ _ _ _ _ _ _ _ _ (Ne.symm (Nat.succ_ne_zero t))]
  exact hm2 c

theorem paths_anti_eq (opt S r sigma T : ℝ) (Nsteps Nsim : ℕ) (draws : ℕ → ℝ)
    (h : Nsteps ≠ 0) :
    paths_anti opt S r sigma T Nsteps Nsim draws =
      some (antiMatrix S r sigma T Nsteps Nsim draws,
        antiPrice opt S r sigma T Nsteps Nsim draws) := by
  unfold paths_anti
  rw [if_neg h]

theorem paths_con_eq (opt S r sigma T : ℝ) (Nsteps Nsim Nopti : ℕ) (draws : ℕ → ℝ)
    (h : Nsteps ≠ 0) :
    paths_con opt S r sigma T Nsteps Nsim Nopti draws =
      some (conM2 S r sigma T Nsteps Nsim Nopti draws,
        conPrice opt S r sigma T Nsteps Nsim Nopti draws) := by
  unfold paths_con
  rw [if_neg h]

/-- C8: both simulators return their path matrix, and row 0 of each matrix is
identically the initial price `S` in every column. -/
theorem paths_row0_eq_initial (opt S r sigma T : ℝ) (Nsteps Nsim Nopti : ℕ)
    (draws : ℕ → ℝ) (hS : 0 < S) (hN : 0 < Nsteps) :
    (paths_anti opt S r sigma T Nsteps Nsim draws =
        some (antiMatrix S r sigma T Nsteps Nsim draws,
          antiPrice opt S r sigma T Nsteps Nsim draws) ∧
      ∀ c, antiMatrix S r sigma T Nsteps Nsim draws 0 c = S) ∧
    (paths_con opt S r sigma T Nsteps Nsim Nopti draws =
        some (conM2 S r sigma T Nsteps Nsim Nopti draws,
          conPrice opt S r sigma T Nsteps Nsim Nopti draws) ∧
      ∀ c, conM2 S r sigma T Nsteps Nsim Nopti draws 0 c = S) :=
  ⟨⟨paths_anti_eq opt S r sigma T Nsteps Nsim draws (Nat.pos_iff_ne_zero.mp hN),
      antiMatrix_row0 S r sigma T Nsteps Nsim draws⟩,
    ⟨paths_con_eq opt S r sigma T Nsteps Nsim Nopti draws (Nat.pos_iff_ne_zero.mp hN),
      conLoop_row0 S r sigma (T / (Nsteps : ℝ)) (Real.sqrt (T / (Nsteps : ℝ)))
        Nsteps Nsim draws (Nopti * Nsteps)⟩⟩

/-- C8 witness at a concrete input. -/
theorem paths_row0_eq_initial_witness :
    antiMatrix 100 0.03 0.25 1 1 2 dBug 0 0 = 100 ∧
      conM2 100 0.03 0.25 1 1 2 3 dBug 0 5 = 100 :=
  ⟨(paths_row0_eq_initial 1 100 0.03 0.25 1 1 2 3 dBug (by norm_num)
      (by decide)).1.2 0,
    (paths_row0_eq_initial 1 100 0.03 0.25 1 1 2 3 dBug (by norm_num)
      (by decide)).2.2 5⟩

/-! ### Column 0 of the antithetic matrix (claim C10) -/

theorem negIdx_zero (Nsim : ℕ) : negIdx Nsim 0 = 0 := by
  unfold negIdx
  simp [Nat.mod_self]

theorem negIdx_ne_zero (Nsim j : ℕ) (h1 : 1 ≤ j) (h2 : j < Nsim) :
    negIdx Nsim j ≠ 0 := by
  unfold negIdx
  have hlt : Nsim - j < Nsim := by omega
  rw [Nat.mod_eq_of_lt hlt]
  omega

theorem antiBody_col0_ne (r sigma dt sq : ℝ) (Nsim j : ℕ) (z : ℝ) (i : ℕ)
    (m : ℕ → ℕ → ℝ) (i2 : ℕ) (hj : j ≠ 0) (hn : negIdx Nsim j ≠ 0) :
    antiBody r sigma dt sq Nsim j z i m i2 0 = m i2 0 := by
  simp only [antiBody, mset]
  rw [if_neg (fun hc => hn hc.2.symm), if_neg (fun hc => hj hc.2.symm)]

theorem antiIter_col0_preserved (r sigma dt sq : ℝ) (Nsteps Nsim : ℕ)
    (draws : ℕ → ℝ) (m : ℕ → ℕ → ℝ) (j : ℕ) (hj : j ≠ 0) (hjN : j < Nsim)
    (i2 : ℕ) : antiIter r sigma dt sq Nsteps Nsim draws m j i2 0 = m i2 0 := by
  unfold antiIter
  refine foldl_invariant (fun m2 => m2 i2 0 = m i2 0) _ (List.range Nsteps) m rfl ?_
  intro m2 t ht hm2
  rw [antiBody_col0_ne _ _ _ _ _ _ _ _ _ _ hj (negIdx_ne_zero _ _ (by omega) hjN)]
  exact hm2

theorem antiIter_zero_col0 (S r sigma dt sq : ℝ) (Nsteps Nsim : ℕ)
    (draws : ℕ → ℝ) :
    ∀ n, ∀ i ≤ n,
      ((List.range n).foldl
        (fun acc t => antiBody r sigma dt sq Nsim 0 (draws (0 * Nsteps + t)) t acc)
        (initPaths S)) i 0 = negSeq S r sigma dt sq draws i := by
  intro n
  induction n with
  | zero =>
    intro i hi
    obtain rfl : i = 0 := Nat.le_zero.mp hi
    rfl
  | succ n ih =>
    intro i hi
    rw [List.range_succ, List.foldl_append, List.foldl_cons, List.foldl_nil]
    rcases Nat.lt_or_ge i (n + 1) with hlt | hge
    · rw [antiBody_row_ne _ _ _ _ _ _ _ _ _ _ _ (by omega)]
      exact ih i (by omega)
    · obtain rfl : i = n + 1 := le_antisymm hi hge
      set M := (List.range n).foldl
        (fun acc t => antiBody r sigma dt sq Nsim 0 (draws (0 * Nsteps + t)) t acc)
        (initPaths S) with hM
      have hMn : M n 0 = negSeq S r sigma dt sq draws n := ih n (le_refl n)
      simp only [antiBody, negIdx_zero, Nat.zero_mul, Nat.zero_add]
      rw [mset_same]
      rw [mset_ne _ _ _ _ _ _ (by omega)]
      rw [hMn]
      rfl

/-- C10: for every `Nsim ≥ 1`, column 0 of the antithetic path matrix is
generated entirely by the negated-draw branch: at every row `i ≤ Nsteps` it
equals the mirrored path `S * ∏ exp(dt*(r - sigma^2/2) - sigma*sqrt dt * z)`
driven by the draws of the `j = 0` iteration.  (Column `-0` is column `0`, so
within each time step the negative-branch write overwrites the positive one,
and no later iteration touches column 0.) -/
theorem anti_col0_negative_branch (S r sigma T : ℝ) (Nsteps Nsim : ℕ)
    (draws : ℕ → ℝ) (i : ℕ) (hNs : 0 < Nsim) (hi : i ≤ Nsteps) :
    antiMatrix S r sigma T Nsteps Nsim draws i 0 =
      negPath S r sigma T Nsteps draws i := by
  obtain ⟨k, rfl⟩ : ∃ k, Nsim = k + 1 := ⟨Nsim - 1, by omega⟩
  unfold antiMatrix
  have hcount : antiLoopCount (k + 1) = k + 1 := rfl
  rw [hcount, List.range_succ_eq_map, List.foldl_cons]
  refine foldl_invariant
    (fun m => ∀ i2 ≤ Nsteps, m i2 0 =
      negSeq S r sigma (T / ((Nsteps : ℕ) : ℝ)) (Real.sqrt (T / ((Nsteps : ℕ) : ℝ))) draws i2)
    _ _ _ ?_ ?_ i hi
  · intro i2 hi2
    exact antiIter_zero_col0 S r sigma _ _ Nsteps (k + 1) draws Nsteps i2 hi2
  · intro m j hjmem hm i2 hi2
    obtain ⟨x, hx, rfl⟩ := List.mem_map.mp hjmem
    have hxk : x < k := List.mem_range.mp hx
    rw [antiIter_col0_preserved _ _ _ _ _ _ _ _ _ (Nat.succ_ne_zero x) (by omega)]
    exact hm i2 hi2

/-- C10 witness at a concrete input. -/
theorem anti_col0_negative_branch_witness :
    antiMatrix 100 0.03 0.25 1 2 3 dBug 2 0 = negPath 100 0.03 0.25 1 2 dBug 2 :=
  anti_col0_negative_branch 100 0.03 0.25 1 2 3 dBug 2 (by decide) (by decide)

/-! ### The control-variate coefficient -/

theorem npMean_const (n : ℕ) (x : ℝ) (hn : n ≠ 0) : npMean n (fun _ => x) = x := by
  unfold npMean
  rw [Finset.sum_const, Finset.card_range, nsmul_eq_mul]
  field_simp

theorem sampleCov_const_right (n : ℕ) (x : ℕ → ℝ) (s : ℝ) :
    sampleCov n x (fun _ => s) = 0 := by
  unfold sampleCov
  rcases Nat.eq_zero_or_pos n with h0 | hpos
  · subst h0
    simp
  · rw [npMean_const n s (by omega)]
    simp

/-- The coefficient `c = -cov/var_z` computed by `paths_con` is identically
zero: `np.cov(paths_1, payoffs_1)[1,0]` covaries row 1 of `paths_1` with its
row 0, and row 0 is the constant `S`. -/
theorem conCoeff_eq_zero (S r sigma T : ℝ) (Nsteps Nopti : ℕ) (draws : ℕ → ℝ) :
    conCoeff S r sigma T Nsteps Nopti draws = 0 := by
  unfold conCoeff conCov conM1
  have hrow0 : (fun c => conLoop S r sigma (T / ((Nsteps : ℕ) : ℝ))
      (Real.sqrt (T / ((Nsteps : ℕ) : ℝ))) Nsteps Nopti draws 0 0 c) = fun _ => S := by
    funext c
    exact conLoop_row0 S r sigma _ _ Nsteps Nopti draws 0 c
  rw [hrow0, sampleCov_const_right]
  simp

theorem conVarZ_ex_pos : 0 < conVarZ 100 0 1 1 := by
  unfold conVarZ
  have h1 : (1 : ℝ) < Real.exp (1 * 1 ^ 2) := by
    rw [Real.one_lt_exp_iff]
    norm_num
  have h2 : (0 : ℝ) < Real.exp (2 * 0 * 1) := Real.exp_pos _
  nlinarith

/-- C2: the scalar returned by `paths_con` equals the spec's formula
`mean(discounted_payoff + c·(S − S_T))` with `S_T` the path's own terminal
price — both sides reduce to the plain mean of the discounted payoffs because
the computed coefficient `c` is identically zero. -/
theorem con_price_matches_spec_formula (opt S r sigma T : ℝ)
    (Nsteps Nsim Nopti : ℕ) (draws : ℕ → ℝ) (hN : 0 < Nsteps) (hNo : 2 ≤ Nopti)
    (hvz : conVarZ S r sigma T ≠ 0) :
    paths_con opt S r sigma T Nsteps Nsim Nopti draws =
        some (conM2 S r sigma T Nsteps Nsim Nopti draws,
          conPrice opt S r sigma T Nsteps Nsim Nopti draws) ∧
      conPrice opt S r sigma T Nsteps Nsim Nopti draws =
        specConPrice opt S r sigma T Nsteps Nsim Nopti draws := by
  refine ⟨paths_con_eq opt S r sigma T Nsteps Nsim Nopti draws
    (Nat.pos_iff_ne_zero.mp hN), ?_⟩
  unfold conPrice specConPrice
  simp only [conCoeff_eq_zero, zero_mul, add_zero]

/-- C2 witness at a concrete input. -/
theorem con_price_matches_spec_formula_witness :
    paths_con 1 100 0 1 1 1 1 2 dBug =
        some (conM2 100 0 1 1 1 1 2 dBug, conPrice 1 100 0 1 1 1 1 2 dBug) ∧
      conPrice 1 100 0 1 1 1 1 2 dBug = specConPrice 1 100 0 1 1 1 1 2 dBug :=
  con_price_matches_spec_formula 1 100 0 1 1 1 1 2 dBug (by decide) (by decide)
    (ne_of_gt conVarZ_ex_pos)

/-! ### The auxiliary-path terminal prices at a concrete input (claim C3) -/

theorem conM1_ex_eval :
    conM1 100 0 1 1 1 2 dBug 1 0 = 100 * Real.exp 2.5 ∧
      conM1 100 0 1 1 1 2 dBug 1 1 = 100 * Real.exp (-0.5) := by
  have h2 : List.range 2 = [0, 1] := rfl
  have h1 : List.range 1 = [0] := rfl
  constructor <;>
    norm_num [conM1, conLoop, conBody, mset, initPaths, dBug, h2, h1, Real.sqrt_one]

/-- C3 (code evidence): the control coefficient computed by `paths_con` is
identically zero — for every input — whereas the claimed value
`−Cov(S_T, payoff)/Var(S_T)` is strictly negative at a concrete input
(`opt = 1`, `S = 100`, `r = 0`, `sigma = 1`, `T = 1`, `Nsteps = 1`,
`Nopti = 2`, draws `3, 0`), so the two disagree. -/
theorem con_coeff_zero_not_spec :
    (∀ (S r sigma T : ℝ) (Nsteps Nopti : ℕ) (draws : ℕ → ℝ),
        conCoeff S r sigma T Nsteps Nopti draws = 0) ∧
      specConCoeff 1 100 0 1 1 1 2 dBug < 0 := by
  refine ⟨conCoeff_eq_zero, ?_⟩
  obtain ⟨ht0, ht1⟩ := conM1_ex_eval
  have hA : (3.5 : ℝ) ≤ Real.exp 2.5 := by
    have := Real.add_one_le_exp (2.5 : ℝ)
    linarith
  have hB1 : Real.exp (-0.5 : ℝ) < 1 := by
    rw [Real.exp_lt_one_iff]
    norm_num
  have hB0 : (0 : ℝ) < Real.exp (-0.5) := Real.exp_pos _
  unfold specConCoeff sampleCov npMean Kglob
  simp only [Finset.sum_range_succ, Finset.sum_range_zero]
  rw [ht0, ht1]
  have hp0 : max (1 * (100 * Real.exp 2.5 - 110)) 0 = 1 * (100 * Real.exp 2.5 - 110) := by
    apply max_eq_left
    nlinarith
  have hp1 : max (1 * (100 * Real.exp (-0.5) - 110)) 0 = (0 : ℝ) := by
    apply max_eq_right
    nlinarith
  rw [hp0, hp1]
  push_cast
  apply div_neg_of_neg_of_pos
  · have hd1 : (0 : ℝ) < 100 * Real.exp 2.5 - 100 * Real.exp (-0.5) := by nlinarith
    have hd2 : (0 : ℝ) < 100 * Real.exp 2.5 - 110 := by nlinarith
    nlinarith [mul_pos hd1 hd2]
  · exact conVarZ_ex_pos

end

end MiniCodes
